import Mathlib

/-!
Shallow embedding of `src/config_release.py`, a single-shot release
utility: metadata resolver, changelog version reader, commit-message
bump classifier, version calculator and changelog writer.  Subprocess
and file-system effects are factored out: each function is modelled on
the pure data it consumes (the branch name string, the list of
changelog lines, the raw commit-message stdout, the prior changelog
content), exactly as the Python code manipulates it.
-/

namespace ConfigRelease

/-- Failure conditions of the pipeline.  In the Python source every one
of these is a `ValueError` raised with a distinguishing message; the
constructor names follow the conditions: branch pattern mismatch in
`parse_project_metadata`, untagged commit line in `analyze_last_commit`,
unknown bump type and unparsable version in `bump_version`. -/
inductive Err where
  | metadataNotFound
  | invalidCommitFormat
  | unknownBumpType
  | invalidVersion
  deriving DecidableEq, Repr

deriving instance DecidableEq for Except

/-- Strip a literal leading pattern from a character list: `some rest`
when the pattern is an initial segment, `none` otherwise.  This is the
single primitive behind both literal-text regex fragments and the
Python `str.startswith` tests used by the classifier. -/
def stripPre : List Char → List Char → Option (List Char)
  | [], l => some l
  | _ :: _, [] => none
  | p :: ps, c :: cs => if c = p then stripPre ps cs else none

/-- Models Python `s.startswith(t)`. -/
def pyStartsWith (t s : String) : Bool :=
  (stripPre t.data s.data).isSome

/-- Accumulator loop of `pySplit`: split a character list at every
occurrence of the separator, keeping empty pieces, as Python
`str.split(sep)` does with a one-character separator. -/
def pySplitAux (sep : Char) : List Char → List Char → List String
  | [], acc => [String.mk acc.reverse]
  | c :: rest, acc =>
    if c = sep then String.mk acc.reverse :: pySplitAux sep rest []
    else pySplitAux sep rest (c :: acc)

/-- Models Python `s.split(sep)` for a one-character separator: the
result always has one more piece than there are separator occurrences,
so `"".split(".") == [""]` and a trailing separator yields a trailing
empty piece. -/
def pySplit (sep : Char) (s : String) : List String :=
  pySplitAux sep s.data []

/-- Models Python `int(s)` on the digit-only strings this program feeds
it (pieces of `\d+\.\d+\.\d+` regex captures and of the `0.0.0`
default): `some` of the decimal value on a non-empty all-digit string,
`none` otherwise. -/
def parseNat (s : String) : Option Nat :=
  if s.data.isEmpty then none
  else if s.data.all Char.isDigit then
    some (s.data.foldl (fun a c => 10 * a + (c.toNat - 48)) 0)
  else none

/-- Fuel-driven decimal rendering loop: digits of `n` in front of the
accumulator, provided the fuel exceeds `n`. -/
def natReprCore : Nat → Nat → List Char → List Char
  | 0, _, acc => acc
  | fuel + 1, n, acc =>
    if n < 10 then Nat.digitChar n :: acc
    else natReprCore fuel (n / 10) (Nat.digitChar (n % 10) :: acc)

/-- Decimal digit characters of `n`, as Python `f-string` formatting of
a non-negative integer renders it. -/
def natRepr (n : Nat) : List Char := natReprCore (n + 1) n []

/-- Models the f-string `f"{major}.{minor}.{patch}"` that
`bump_version` returns. -/
def mkVersionString (M N P : Nat) : String :=
  String.mk (natRepr M ++ '.' :: natRepr N ++ '.' :: natRepr P)

/-- Models `map(int, version.split("."))` unpacked into exactly three
components, the first statement of `bump_version`: `none` is the
`ValueError` path (wrong number of pieces, or a piece `int` rejects). -/
def parseVersionTriple (version : String) : Option (Nat × Nat × Nat) :=
  match pySplit '.' version with
  | [a, b, c] =>
    match parseNat a, parseNat b, parseNat c with
    | some M, some N, some P => some (M, N, P)
    | _, _, _ => none
  | _ => none

/-- Models `bump_version(version, bump_type)`: parse the dotted version,
then dispatch on the bump type string exactly as the `if/elif` chain
does — `"major"`, `"minor"`, `"bugfix"`, and otherwise the
`Unknown bump type` `ValueError`. -/
def bump_version (version bump_type : String) : Except Err String :=
  match parseVersionTriple version with
  | none => .error .invalidVersion
  | some (M, N, P) =>
    if bump_type = "major" then .ok (mkVersionString (M + 1) 0 0)
    else if bump_type = "minor" then .ok (mkVersionString M (N + 1) 0)
    else if bump_type = "bugfix" then .ok (mkVersionString M N (P + 1))
    else .error .unknownBumpType

/-- Scan loop of `analyze_last_commit`: walk the commit-message lines
with the running `bump_type` (initially `"bugfix"`), return `"major"`
immediately on a `Major`-tagged line, overwrite the running value on
`Minor`/`Bugfix` tags, and raise on any other line. -/
def analyzeLines : List String → String → Except Err String
  | [], bt => .ok bt
  | m :: rest, bt =>
    if pyStartsWith "Major" m then .ok "major"
    else if pyStartsWith "Minor" m then analyzeLines rest "minor"
    else if pyStartsWith "Bugfix" m then analyzeLines rest "bugfix"
    else .error .invalidCommitFormat

/-- Models `analyze_last_commit`: the raw `git log --pretty=%B -1`
stdout is split on newline characters (Python `split("\n")`, keeping
empty lines) and scanned by `analyzeLines` starting from `"bugfix"`. -/
def analyze_last_commit (stdout : String) : Except Err String :=
  analyzeLines (pySplit '\n' stdout) "bugfix"

/-- A commit-message line carrying one of the three recognised tags. -/
def isTagged (m : String) : Bool :=
  pyStartsWith "Major" m || pyStartsWith "Minor" m || pyStartsWith "Bugfix" m

/-- The bump value a `Minor`/`Bugfix`-tagged line writes into the
running state of the scan (the `Minor` test comes first, as in the
`elif` chain). -/
def tagOf (m : String) : String :=
  if pyStartsWith "Minor" m then "minor" else "bugfix"

/-- Fragment `\d+\.` of the version regex: a non-empty maximal digit
run followed by a literal dot, returning the run and the rest after
the dot. -/
def digitsDot (l : List Char) : Option (List Char × List Char) :=
  match l.takeWhile Char.isDigit, l.dropWhile Char.isDigit with
  | d :: ds, c :: r => if c = '.' then some (d :: ds, r) else none
  | _, _ => none

/-- Final `\d+` fragment of the version regex: a non-empty maximal
digit run, the rest of the line being ignored. -/
def digitsEnd (l : List Char) : Option (List Char) :=
  match l.takeWhile Char.isDigit with
  | d :: ds => some (d :: ds)
  | [] => none

/-- Models `re.match(r"## v(?P<version>\d+\.\d+\.\d+)", line)`: anchored
at the start of the line, the literal `## v`, then three non-empty
digit runs separated by dots; the captured group is returned. -/
def matchVersionHeading (line : String) : Option String :=
  match stripPre "## v".data line.data with
  | none => none
  | some r0 =>
    match digitsDot r0 with
    | none => none
    | some (d1, r2) =>
      match digitsDot r2 with
      | none => none
      | some (d2, r4) =>
        match digitsEnd r4 with
        | none => none
        | some d3 => some (String.mk (d1 ++ '.' :: d2 ++ '.' :: d3))

/-- One step of the version scan: a matching heading overwrites the
running version, any other line leaves it. -/
def versionScanStep (v line : String) : String :=
  match matchVersionHeading line with
  | some w => w
  | none => v

/-- The scan loop of `read_latest_version` over the changelog lines:
start from `"0.0.0"` and let every matching heading overwrite the
running value, so the last matching heading wins. -/
def readVersionLines (lines : List String) : String :=
  lines.foldl versionScanStep "0.0.0"

/-- The `readlines()` content the code writes and re-reads when the
changelog file is missing: `"# Changelog\n\n"`. -/
def initChangelogLines : List String := ["# Changelog\n", "\n"]

/-- Models `read_latest_version(changelog_file)`: `none` stands for a
missing file, which the code first creates with the header stub and
then reads; `some lines` is the `readlines()` result of an existing
file. -/
def read_latest_version (content : Option (List String)) : String :=
  match content with
  | none => readVersionLines initChangelogLines
  | some lines => readVersionLines lines

/-- Models the regex class `\w` on the ASCII branch names this program
sees: letters, digits and underscore. -/
def isWordChar (c : Char) : Bool := c.isAlphanum || c = '_'

/-- Attempt to match `(?P<customer_name>\w+)/(?P<project_name>\w+)/release`
at the head of the character list: two non-empty maximal word-character
runs separated by slashes, then the literal `release`, the rest being
ignored.  Greedy `\w+` followed by `/` needs no backtracking, because a
word character is never a slash. -/
def tryMatchAt (l : List Char) : Option (String × String) :=
  if l.takeWhile isWordChar = [] then none
  else
    match l.dropWhile isWordChar with
    | c1 :: r2 =>
      if c1 = '/' then
        if r2.takeWhile isWordChar = [] then none
        else
          match r2.dropWhile isWordChar with
          | c2 :: r4 =>
            if c2 = '/' then
              match stripPre "release".data r4 with
              | some _ =>
                some (String.mk (l.takeWhile isWordChar), String.mk (r2.takeWhile isWordChar))
              | none => none
            else none
          | [] => none
      else none
    | [] => none

/-- Models `re.search`: try the pattern at every start position from
left to right and return the first success. -/
def searchFrom : List Char → Option (String × String)
  | [] => none
  | c :: rest =>
    match tryMatchAt (c :: rest) with
    | some r => some r
    | none => searchFrom rest

/-- Models `parse_project_metadata` on the stripped branch name: a
successful `re.search` of the branch pattern yields the two captured
groups, and a failed search raises (the `MetadataNotFound` condition,
a `ValueError` in the source). -/
def parse_project_metadata (branch_name : String) : Except Err (String × String) :=
  match searchFrom branch_name.data with
  | some r => .ok r
  | none => .error .metadataNotFound

/-- The heading line `generate_changelog` writes first:
`f"## v{new_version} - {timestamp} (UTC)\n"`. -/
def changelogHeading (new_version timestamp : String) : String :=
  "## v" ++ new_version ++ " - " ++ timestamp ++ " (UTC)\n"

/-- Models `generate_changelog`: the file is opened in append mode (the
prior content stays put) and the three `f.write` calls run in order —
the heading, the stripped change description, and the blank-line
separator. -/
def generate_changelog (existing new_version timestamp description : String) : String :=
  [changelogHeading new_version timestamp, description, "\n\n"].foldl
    (fun acc w => acc ++ w) existing

/-! Helper lemmas about the string primitives. -/

theorem stripPre_eq_some : ∀ (p l r : List Char), stripPre p l = some r → l = p ++ r := by
  intro p
  induction p with
  | nil =>
    intro l r h
    simp only [stripPre, Option.some.injEq] at h
    simp [h]
  | cons c cs ih =>
    intro l r h
    cases l with
    | nil => simp [stripPre] at h
    | cons x xs =>
      simp only [stripPre] at h
      by_cases hx : x = c
      · rw [if_pos hx] at h
        have := ih xs r h
        simp [hx, this]
      · rw [if_neg hx] at h
        exact absurd h (by simp)

theorem stripPre_self_append : ∀ (p r : List Char), stripPre p (p ++ r) = some r := by
  intro p
  induction p with
  | nil => intro r; rfl
  | cons c cs ih => intro r; simp [stripPre, ih]

theorem pyStartsWith_iff (t s : String) :
    pyStartsWith t s = true ↔ ∃ r, s.data = t.data ++ r := by
  unfold pyStartsWith
  cases h : stripPre t.data s.data with
  | none =>
    simp only [Option.isSome_none, Bool.false_eq_true, false_iff]
    rintro ⟨r, hr⟩
    rw [hr, stripPre_self_append] at h
    exact absurd h (by simp)
  | some r =>
    simp only [Option.isSome_some, true_iff]
    exact ⟨r, stripPre_eq_some _ _ _ h⟩

theorem not_major_of_minor {x : String} (h : pyStartsWith "Minor" x = true) :
    pyStartsWith "Major" x = false := by
  rw [pyStartsWith_iff] at h
  obtain ⟨r, hr⟩ := h
  by_contra hmaj
  rw [Bool.not_eq_false, pyStartsWith_iff] at hmaj
  obtain ⟨r2, hr2⟩ := hmaj
  rw [hr] at hr2
  rw [show ("Minor".data) = ['M', 'i', 'n', 'o', 'r'] from rfl,
    show ("Major".data) = ['M', 'a', 'j', 'o', 'r'] from rfl] at hr2
  simp only [List.cons_append, List.cons.injEq] at hr2
  exact absurd hr2.2.1 (by decide)

theorem not_major_of_bugfix {x : String} (h : pyStartsWith "Bugfix" x = true) :
    pyStartsWith "Major" x = false := by
  rw [pyStartsWith_iff] at h
  obtain ⟨r, hr⟩ := h
  by_contra hmaj
  rw [Bool.not_eq_false, pyStartsWith_iff] at hmaj
  obtain ⟨r2, hr2⟩ := hmaj
  rw [hr] at hr2
  rw [show ("Bugfix".data) = ['B', 'u', 'g', 'f', 'i', 'x'] from rfl,
    show ("Major".data) = ['M', 'a', 'j', 'o', 'r'] from rfl] at hr2
  simp only [List.cons_append, List.cons.injEq] at hr2
  exact absurd hr2.1 (by decide)

theorem takeWhile_dropWhile_of_append {α : Type} (p : α → Bool) :
    ∀ (w : List α) (nc : α) (rest : List α), (∀ c ∈ w, p c = true) → p nc = false →
      (w ++ nc :: rest).takeWhile p = w ∧ (w ++ nc :: rest).dropWhile p = nc :: rest := by
  intro w
  induction w with
  | nil =>
    intro nc rest _ hnc
    simp [List.takeWhile_cons, List.dropWhile_cons, hnc]
  | cons c cs ih =>
    intro nc rest hw hnc
    have hc : p c = true := hw c (by simp)
    have := ih nc rest (fun x hx => hw x (by simp [hx])) hnc
    simp [List.takeWhile_cons, List.dropWhile_cons, hc, this.1, this.2]

theorem dropWhile_head_false {α : Type} (p : α → Bool) :
    ∀ (l : List α), (∃ x ∈ l, p x = false) →
      ∃ bad rest, l.dropWhile p = bad :: rest ∧ p bad = false := by
  intro l
  induction l with
  | nil => rintro ⟨x, hx, _⟩; exact absurd hx (by simp)
  | cons c cs ih =>
    rintro ⟨x, hx, hpx⟩
    by_cases hc : p c = true
    · rcases List.mem_cons.mp hx with rfl | hxs
      · exact absurd hc (by simp [hpx])
      · obtain ⟨bad, rest, hdr, hbad⟩ := ih ⟨x, hxs, hpx⟩
        exact ⟨bad, rest, by simp [List.dropWhile_cons, hc, hdr], hbad⟩
    · rw [Bool.not_eq_true] at hc
      exact ⟨c, cs, by simp [List.dropWhile_cons, hc], hc⟩

/-! Helper lemmas about `pySplit`. -/

theorem pySplitAux_no_sep (sep : Char) :
    ∀ (l acc : List Char), (∀ c ∈ l, c ≠ sep) →
      pySplitAux sep l acc = [String.mk (acc.reverse ++ l)] := by
  intro l
  induction l with
  | nil => intro acc _; simp [pySplitAux]
  | cons c cs ih =>
    intro acc hl
    have hc : ¬ c = sep := hl c (by simp)
    rw [pySplitAux, if_neg hc, ih (c :: acc) (fun x hx => hl x (by simp [hx]))]
    simp

theorem pySplitAux_sep (sep : Char) :
    ∀ (l1 : List Char), (∀ c ∈ l1, c ≠ sep) → ∀ (l2 acc : List Char),
      pySplitAux sep (l1 ++ sep :: l2) acc
        = String.mk (acc.reverse ++ l1) :: pySplitAux sep l2 [] := by
  intro l1
  induction l1 with
  | nil => intro _ l2 acc; simp [pySplitAux]
  | cons c cs ih =>
    intro hl l2 acc
    have hc : ¬ c = sep := hl c (by simp)
    rw [List.cons_append, pySplitAux, if_neg hc,
      ih (fun x hx => hl x (by simp [hx])) l2 (c :: acc)]
    simp

theorem pySplit_three (d1 d2 d3 : List Char)
    (h1 : ∀ c ∈ d1, c ≠ '.') (h2 : ∀ c ∈ d2, c ≠ '.') (h3 : ∀ c ∈ d3, c ≠ '.') :
    pySplit '.' (String.mk (d1 ++ '.' :: d2 ++ '.' :: d3))
      = [String.mk d1, String.mk d2, String.mk d3] := by
  show pySplitAux '.' (d1 ++ '.' :: d2 ++ '.' :: d3) [] = _
  simp only [List.append_assoc, List.cons_append]
  rw [pySplitAux_sep '.' d1 h1, pySplitAux_sep '.' d2 h2, pySplitAux_no_sep '.' d3 [] h3]
  simp

/-! Helper lemmas about the decimal rendering `natRepr`. -/

theorem natReprCore_append :
    ∀ (fuel n : Nat) (acc : List Char), n < fuel →
      natReprCore fuel n acc = natReprCore fuel n [] ++ acc := by
  intro fuel
  induction fuel with
  | zero => intro n acc h; exact absurd h (by omega)
  | succ f ih =>
    intro n acc hn
    by_cases h10 : n < 10
    · simp [natReprCore, h10]
    · have hdiv : n / 10 < n := Nat.div_lt_self (by omega) (by omega)
      have hf : n / 10 < f := by omega
      rw [natReprCore, if_neg h10, natReprCore, if_neg h10]
      rw [ih (n / 10) (Nat.digitChar (n % 10) :: acc) hf]
      rw [ih (n / 10) [Nat.digitChar (n % 10)] hf]
      simp

theorem natReprCore_fuel :
    ∀ (f1 f2 n : Nat), n < f1 → n < f2 →
      natReprCore f1 n [] = natReprCore f2 n [] := by
  intro f1
  induction f1 with
  | zero => intro f2 n h _; exact absurd h (by omega)
  | succ g1 ih =>
    intro f2 n h1 h2
    cases f2 with
    | zero => exact absurd h2 (by omega)
    | succ g2 =>
      by_cases h10 : n < 10
      · simp [natReprCore, h10]
      · have hdiv : n / 10 < n := Nat.div_lt_self (by omega) (by omega)
        rw [natReprCore, if_neg h10, natReprCore, if_neg h10,
          natReprCore_append g1 _ _ (by omega), natReprCore_append g2 _ _ (by omega),
          ih g2 (n / 10) (by omega) (by omega)]

theorem natRepr_unfold (n : Nat) :
    natRepr n = if n < 10 then [Nat.digitChar n]
      else natRepr (n / 10) ++ [Nat.digitChar (n % 10)] := by
  unfold natRepr
  by_cases h10 : n < 10
  · simp [natReprCore, h10]
  · have hdiv : n / 10 < n := Nat.div_lt_self (by omega) (by omega)
    rw [natReprCore, if_neg h10, natReprCore_append n _ _ (by omega),
      natReprCore_fuel n (n / 10 + 1) (n / 10) (by omega) (by omega), if_neg h10]

theorem digitChar_isDigit {m : Nat} (hm : m < 10) : (Nat.digitChar m).isDigit = true := by
  interval_cases m <;> decide

theorem digitChar_toNat {m : Nat} (hm : m < 10) : (Nat.digitChar m).toNat = 48 + m := by
  interval_cases m <;> decide

theorem natRepr_ne_nil (n : Nat) : natRepr n ≠ [] := by
  rw [natRepr_unfold]
  by_cases h10 : n < 10 <;> simp [h10]

theorem natRepr_digits (n : Nat) : ∀ c ∈ natRepr n, c.isDigit = true := by
  induction n using Nat.strong_induction_on with
  | _ n ih =>
    intro c hc
    rw [natRepr_unfold] at hc
    by_cases h10 : n < 10
    · rw [if_pos h10] at hc
      simp only [List.mem_singleton] at hc
      exact hc ▸ digitChar_isDigit h10
    · rw [if_neg h10] at hc
      rcases List.mem_append.mp hc with hl | hr
      · have hdiv : n / 10 < n := Nat.div_lt_self (by omega) (by omega)
        exact ih (n / 10) hdiv c hl
      · simp only [List.mem_singleton] at hr
        exact hr ▸ digitChar_isDigit (Nat.mod_lt _ (by omega))

theorem natRepr_no_dot (n : Nat) : ∀ c ∈ natRepr n, c ≠ '.' := by
  intro c hc he
  have := natRepr_digits n c hc
  rw [he] at this
  exact absurd this (by decide)

theorem foldl_natRepr (n : Nat) :
    ∀ a : Nat, (natRepr n).foldl (fun a c => 10 * a + (c.toNat - 48)) a
      = a * 10 ^ (natRepr n).length + n := by
  induction n using Nat.strong_induction_on with
  | _ n ih =>
    intro a
    rw [natRepr_unfold]
    by_cases h10 : n < 10
    · rw [if_pos h10]
      simp only [List.foldl_cons, List.foldl_nil, List.length_singleton]
      rw [digitChar_toNat h10]
      omega
    · rw [if_neg h10]
      have hdiv : n / 10 < n := Nat.div_lt_self (by omega) (by omega)
      rw [List.foldl_append, ih (n / 10) hdiv a]
      simp only [List.foldl_cons, List.foldl_nil, List.length_append,
        List.length_singleton]
      rw [digitChar_toNat (Nat.mod_lt _ (by omega)), pow_succ]
      have hdm : 10 * (n / 10) + n % 10 = n := Nat.div_add_mod n 10
      have hmul : a * (10 ^ (natRepr (n / 10)).length * 10)
          = (a * 10 ^ (natRepr (n / 10)).length) * 10 := by ring
      rw [hmul]
      omega

theorem parseNat_natRepr (n : Nat) : parseNat (String.mk (natRepr n)) = some n := by
  unfold parseNat
  have hne : natRepr n ≠ [] := natRepr_ne_nil n
  have hdig : (natRepr n).all Char.isDigit = true :=
    List.all_eq_true.mpr (natRepr_digits n)
  rw [show (String.mk (natRepr n)).data = natRepr n from rfl]
  rw [if_neg (by simp [List.isEmpty_iff, hne]), if_pos hdig, foldl_natRepr n 0]
  simp

theorem parseVersionTriple_mk (M N P : Nat) :
    parseVersionTriple (mkVersionString M N P) = some (M, N, P) := by
  unfold parseVersionTriple mkVersionString
  rw [pySplit_three _ _ _ (natRepr_no_dot M) (natRepr_no_dot N) (natRepr_no_dot P)]
  simp [parseNat_natRepr]

/-! Helper lemmas about the commit-message scan. -/

theorem analyzeLines_error :
    ∀ (sl : List String) (bad : String) (rest : List String) (bt : String),
      (∀ x ∈ sl, pyStartsWith "Major" x = false) → isTagged bad = false →
      analyzeLines (sl ++ bad :: rest) bt = .error .invalidCommitFormat := by
  intro sl
  induction sl with
  | nil =>
    intro bad rest bt _ hbad
    simp only [isTagged, Bool.or_eq_false_iff] at hbad
    simp [analyzeLines, hbad.1.1, hbad.1.2, hbad.2]
  | cons c cs ih =>
    intro bad rest bt hpre hbad
    have hc : pyStartsWith "Major" c = false := hpre c (by simp)
    have htail : ∀ x ∈ cs, pyStartsWith "Major" x = false :=
      fun x hx => hpre x (by simp [hx])
    by_cases hmi : pyStartsWith "Minor" c
    · simp [analyzeLines, hc, hmi, ih bad rest "minor" htail hbad]
    · by_cases hb : pyStartsWith "Bugfix" c
      · simp [analyzeLines, hc, hmi, hb, ih bad rest "bugfix" htail hbad]
      · simp [analyzeLines, hc, hmi, hb]

theorem analyzeLines_major :
    ∀ (sl : List String) (maj : String) (post : List String) (bt : String),
      (∀ x ∈ sl, pyStartsWith "Minor" x = true ∨ pyStartsWith "Bugfix" x = true) →
      pyStartsWith "Major" maj = true →
      analyzeLines (sl ++ maj :: post) bt = .ok "major" := by
  intro sl
  induction sl with
  | nil => intro maj post bt _ hmaj; simp [analyzeLines, hmaj]
  | cons c cs ih =>
    intro maj post bt hpre hmaj
    have hcs := hpre c (by simp)
    have hM : pyStartsWith "Major" c = false := by
      rcases hcs with h | h
      · exact not_major_of_minor h
      · exact not_major_of_bugfix h
    have htail : ∀ x ∈ cs, pyStartsWith "Minor" x = true ∨ pyStartsWith "Bugfix" x = true :=
      fun x hx => hpre x (by simp [hx])
    by_cases hmi : pyStartsWith "Minor" c
    · simp [analyzeLines, hM, hmi, ih maj post "minor" htail hmaj]
    · have hb : pyStartsWith "Bugfix" c = true := by
        rcases hcs with h | h
        · exact absurd h hmi
        · exact h
      simp [analyzeLines, hM, hmi, hb, ih maj post "bugfix" htail hmaj]

theorem analyzeLines_lastTag :
    ∀ (lines : List String) (bt : String),
      (∀ x ∈ lines, pyStartsWith "Minor" x = true ∨ pyStartsWith "Bugfix" x = true) →
      analyzeLines lines bt = .ok ((lines.map tagOf).getLastD bt) := by
  intro lines
  induction lines with
  | nil => intro bt _; simp [analyzeLines]
  | cons c cs ih =>
    intro bt hl
    have hcs := hl c (by simp)
    have hM : pyStartsWith "Major" c = false := by
      rcases hcs with h | h
      · exact not_major_of_minor h
      · exact not_major_of_bugfix h
    have htail : ∀ x ∈ cs, pyStartsWith "Minor" x = true ∨ pyStartsWith "Bugfix" x = true :=
      fun x hx => hl x (by simp [hx])
    by_cases hmi : pyStartsWith "Minor" c
    · have hstep : analyzeLines (c :: cs) bt = analyzeLines cs "minor" := by
        simp [analyzeLines, hM, hmi]
      rw [hstep, ih "minor" htail, List.map_cons,
        show tagOf c = "minor" from by simp [tagOf, hmi], List.getLastD_cons]
    · have hb : pyStartsWith "Bugfix" c = true := by
        rcases hcs with h | h
        · exact absurd h hmi
        · exact h
      have hstep : analyzeLines (c :: cs) bt = analyzeLines cs "bugfix" := by
        simp [analyzeLines, hM, hmi, hb]
      rw [hstep, ih "bugfix" htail, List.map_cons,
        show tagOf c = "bugfix" from by simp [tagOf, hmi], List.getLastD_cons]

/-! Helper lemmas about the version scan. -/

theorem foldl_versionScan :
    ∀ (lines : List String) (v0 : String),
      lines.foldl versionScanStep v0 = (lines.filterMap matchVersionHeading).getLastD v0 := by
  intro lines
  induction lines with
  | nil => intro v0; simp
  | cons l ls ih =>
    intro v0
    cases h : matchVersionHeading l with
    | none =>
      have hfm : List.filterMap matchVersionHeading (l :: ls)
          = List.filterMap matchVersionHeading ls := by
        simp [List.filterMap_cons, h]
      rw [List.foldl_cons, show versionScanStep v0 l = v0 from by simp [versionScanStep, h],
        ih v0, hfm]
    | some w =>
      have hfm : List.filterMap matchVersionHeading (l :: ls)
          = w :: List.filterMap matchVersionHeading ls := by
        simp [List.filterMap_cons, h]
      rw [List.foldl_cons, show versionScanStep v0 l = w from by simp [versionScanStep, h],
        ih w, hfm, List.getLastD_cons]

theorem getLastD_mem {α : Type} : ∀ (l : List α) (d : α), l ≠ [] → l.getLastD d ∈ l := by
  intro l
  induction l with
  | nil => intro d h; exact absurd rfl h
  | cons a as ih =>
    intro d _
    cases as with
    | nil => simp [List.getLastD_cons]
    | cons b bs =>
      rw [List.getLastD_cons]
      exact List.mem_cons_of_mem a (ih a (by simp))

theorem digitsDot_eq_some {l ds r : List Char} (h : digitsDot l = some (ds, r)) :
    ds ≠ [] ∧ ∀ c ∈ ds, c.isDigit = true := by
  rcases hT : l.takeWhile Char.isDigit with _ | ⟨d, ds2⟩ <;>
    rcases hD : l.dropWhile Char.isDigit with _ | ⟨c0, r0⟩ <;>
      simp only [digitsDot, hT, hD] at h
  · exact absurd h (by simp)
  · exact absurd h (by simp)
  · exact absurd h (by simp)
  · by_cases hc : c0 = '.'
    · rw [if_pos hc] at h
      injection h with h2
      injection h2 with hds hr
      constructor
      · rw [← hds]; simp
      · intro c hc2
        rw [← hds] at hc2
        have : c ∈ l.takeWhile Char.isDigit := by rw [hT]; exact hc2
        exact List.mem_takeWhile_imp this
    · rw [if_neg hc] at h
      exact absurd h (by simp)

theorem digitsEnd_eq_some {l ds : List Char} (h : digitsEnd l = some ds) :
    ds ≠ [] ∧ ∀ c ∈ ds, c.isDigit = true := by
  rcases hT : l.takeWhile Char.isDigit with _ | ⟨d, ds2⟩ <;>
    simp only [digitsEnd, hT] at h
  · exact absurd h (by simp)
  · injection h with h2
    constructor
    · rw [← h2]; simp
    · intro c hc2
      rw [← h2] at hc2
      have : c ∈ l.takeWhile Char.isDigit := by rw [hT]; exact hc2
      exact List.mem_takeWhile_imp this

theorem matchVersionHeading_eq_some {line v : String}
    (h : matchVersionHeading line = some v) :
    ∃ d1 d2 d3, v = String.mk (d1 ++ '.' :: d2 ++ '.' :: d3) ∧
      d1 ≠ [] ∧ d2 ≠ [] ∧ d3 ≠ [] ∧
      (∀ c ∈ d1, c.isDigit = true) ∧ (∀ c ∈ d2, c.isDigit = true) ∧
      (∀ c ∈ d3, c.isDigit = true) := by
  rcases hs : stripPre "## v".data line.data with _ | r0
  · simp only [matchVersionHeading, hs] at h; exact absurd h (by simp)
  rcases hd1 : digitsDot r0 with _ | ⟨d1, r2⟩
  · simp only [matchVersionHeading, hs, hd1] at h; exact absurd h (by simp)
  rcases hd2 : digitsDot r2 with _ | ⟨d2, r4⟩
  · simp only [matchVersionHeading, hs, hd1, hd2] at h; exact absurd h (by simp)
  rcases hd3 : digitsEnd r4 with _ | d3
  · simp only [matchVersionHeading, hs, hd1, hd2, hd3] at h; exact absurd h (by simp)
  simp only [matchVersionHeading, hs, hd1, hd2, hd3] at h
  injection h with h2
  obtain ⟨hne1, hdig1⟩ := digitsDot_eq_some hd1
  obtain ⟨hne2, hdig2⟩ := digitsDot_eq_some hd2
  obtain ⟨hne3, hdig3⟩ := digitsEnd_eq_some hd3
  exact ⟨d1, d2, d3, h2.symm, hne1, hne2, hne3, hdig1, hdig2, hdig3⟩

theorem ne_dot_of_digit {c : Char} (h : c.isDigit = true) : c ≠ '.' := by
  intro he
  rw [he] at h
  exact absurd h (by decide)

theorem parseNat_of_digits (d : List Char) (hne : d ≠ [])
    (hdig : ∀ c ∈ d, c.isDigit = true) : ∃ k, parseNat (String.mk d) = some k := by
  unfold parseNat
  rw [show (String.mk d).data = d from rfl]
  rw [if_neg (by simp [List.isEmpty_iff, hne]), if_pos (List.all_eq_true.mpr hdig)]
  exact ⟨_, rfl⟩

theorem parseVersionTriple_of_heading {line v : String}
    (h : matchVersionHeading line = some v) :
    ∃ t, parseVersionTriple v = some t := by
  obtain ⟨d1, d2, d3, hv, hne1, hne2, hne3, hdig1, hdig2, hdig3⟩ :=
    matchVersionHeading_eq_some h
  obtain ⟨k1, hk1⟩ := parseNat_of_digits d1 hne1 hdig1
  obtain ⟨k2, hk2⟩ := parseNat_of_digits d2 hne2 hdig2
  obtain ⟨k3, hk3⟩ := parseNat_of_digits d3 hne3 hdig3
  refine ⟨(k1, k2, k3), ?_⟩
  rw [hv]
  unfold parseVersionTriple
  rw [pySplit_three d1 d2 d3 (fun c hc => ne_dot_of_digit (hdig1 c hc))
    (fun c hc => ne_dot_of_digit (hdig2 c hc)) (fun c hc => ne_dot_of_digit (hdig3 c hc))]
  simp [hk1, hk2, hk3]

theorem readVersionLines_parses (lines : List String) :
    ∃ t, parseVersionTriple (readVersionLines lines) = some t := by
  unfold readVersionLines
  rw [foldl_versionScan]
  cases hF : lines.filterMap matchVersionHeading with
  | nil => exact ⟨(0, 0, 0), by decide⟩
  | cons a as =>
    have hmem : (a :: as).getLastD "0.0.0" ∈ a :: as :=
      getLastD_mem (a :: as) "0.0.0" (by simp)
    have hmem2 : (a :: as).getLastD "0.0.0" ∈ lines.filterMap matchVersionHeading := by
      rw [hF]; exact hmem
    obtain ⟨line, _, hline⟩ := List.mem_filterMap.mp hmem2
    exact parseVersionTriple_of_heading hline

/-! Helper lemmas about the branch-pattern matcher. -/

theorem tryMatchAt_eq_some {l : List Char} {cs ps : String}
    (h : tryMatchAt l = some (cs, ps)) :
    ∃ c p post, l = c ++ '/' :: (p ++ '/' :: ("release".data ++ post)) ∧
      c ≠ [] ∧ p ≠ [] ∧ (∀ ch ∈ c, isWordChar ch = true) ∧
      (∀ ch ∈ p, isWordChar ch = true) ∧ cs = String.mk c ∧ ps = String.mk p := by
  by_cases h1 : l.takeWhile isWordChar = []
  · simp only [tryMatchAt, h1, if_pos] at h; exact absurd h (by simp)
  rcases hD1 : l.dropWhile isWordChar with _ | ⟨c1, r2⟩
  · simp only [tryMatchAt, h1, hD1, if_neg, ite_false] at h; exact absurd h (by simp)
  by_cases hc1 : c1 = '/'
  swap
  · simp [tryMatchAt, h1, hD1, hc1] at h
  subst hc1
  by_cases h2 : r2.takeWhile isWordChar = []
  · simp [tryMatchAt, h1, hD1, h2] at h
  rcases hD2 : r2.dropWhile isWordChar with _ | ⟨c2, r4⟩
  · simp [tryMatchAt, h1, hD1, h2, hD2] at h
  by_cases hc2 : c2 = '/'
  swap
  · simp [tryMatchAt, h1, hD1, h2, hD2, hc2] at h
  subst hc2
  rcases hS : stripPre "release".data r4 with _ | post
  · simp [tryMatchAt, h1, hD1, h2, hD2, hS] at h
  have hred : tryMatchAt l
      = some (String.mk (l.takeWhile isWordChar), String.mk (r2.takeWhile isWordChar)) := by
    simp [tryMatchAt, h1, hD1, h2, hD2, hS]
  rw [hred] at h
  injection h with h2eq
  have hpair := Prod.mk.inj h2eq
  have hl := List.takeWhile_append_dropWhile isWordChar l
  have hr2 := List.takeWhile_append_dropWhile isWordChar r2
  have hrel : r4 = "release".data ++ post := stripPre_eq_some _ _ _ hS
  set a := l.takeWhile isWordChar with ha
  set b := r2.takeWhile isWordChar with hb
  rw [hD1] at hl
  rw [hD2, hrel] at hr2
  refine ⟨a, b, post, ?_, h1, h2, ?_, ?_, hpair.1.symm, hpair.2.symm⟩
  · rw [← hl, ← hr2]
  · intro ch hch
    rw [ha] at hch
    exact List.mem_takeWhile_imp hch
  · intro ch hch
    rw [hb] at hch
    exact List.mem_takeWhile_imp hch

theorem tryMatchAt_of_shape (c p post : List Char) (hc : c ≠ []) (hp : p ≠ [])
    (hwc : ∀ ch ∈ c, isWordChar ch = true) (hwp : ∀ ch ∈ p, isWordChar ch = true) :
    tryMatchAt (c ++ '/' :: (p ++ '/' :: ("release".data ++ post)))
      = some (String.mk c, String.mk p) := by
  have hslash : isWordChar '/' = false := by decide
  have h1 := takeWhile_dropWhile_of_append isWordChar c '/'
    (p ++ '/' :: ("release".data ++ post)) hwc hslash
  have h2 := takeWhile_dropWhile_of_append isWordChar p '/'
    ("release".data ++ post) hwp hslash
  simp only [tryMatchAt, h1.1, h1.2, h2.1, h2.2, stripPre_self_append]
  rw [if_neg hc]
  simp only [if_true]
  rw [if_neg hp]

theorem searchFrom_eq_some :
    ∀ (l : List Char) (r : String × String), searchFrom l = some r →
      ∃ n, tryMatchAt (l.drop n) = some r ∧ ∀ m, m < n → tryMatchAt (l.drop m) = none := by
  intro l
  induction l with
  | nil => intro r h; simp [searchFrom] at h
  | cons c cl ih =>
    intro r h
    rw [searchFrom] at h
    cases hm : tryMatchAt (c :: cl) with
    | some r2 =>
      rw [hm] at h
      injection h with h2
      exact ⟨0, by rw [List.drop_zero, hm, h2], fun m hm2 => absurd hm2 (by omega)⟩
    | none =>
      rw [hm] at h
      obtain ⟨n, hn, hlt⟩ := ih r h
      refine ⟨n + 1, by rw [List.drop_succ_cons]; exact hn, ?_⟩
      intro m hm2
      cases m with
      | zero => rw [List.drop_zero]; exact hm
      | succ m2 => rw [List.drop_succ_cons]; exact hlt m2 (by omega)

theorem searchFrom_of_tryMatch :
    ∀ (l : List Char) (n : Nat) (r : String × String), tryMatchAt (l.drop n) = some r →
      ∃ r2, searchFrom l = some r2 := by
  intro l
  induction l with
  | nil =>
    intro n r h
    rw [List.drop_nil] at h
    rw [show tryMatchAt [] = none from rfl] at h
    cases h
  | cons c cl ih =>
    intro n r h
    cases hm : tryMatchAt (c :: cl) with
    | some r2 => exact ⟨r2, by rw [searchFrom, hm]⟩
    | none =>
      cases n with
      | zero =>
        rw [List.drop_zero] at h
        rw [h] at hm
        cases hm
      | succ n2 =>
        rw [List.drop_succ_cons] at h
        obtain ⟨r2, h2⟩ := ih n2 r h
        exact ⟨r2, by rw [searchFrom, hm]; exact h2⟩

/-- Evaluation of `bump_version` on a version that parses as `(M, N, P)`:
the three accepted bump type strings and the rejection of every other
string. -/
theorem bump_version_eval (v : String) (M N P : Nat)
    (hv : parseVersionTriple v = some (M, N, P)) :
    bump_version v "major" = .ok (mkVersionString (M + 1) 0 0) ∧
    bump_version v "minor" = .ok (mkVersionString M (N + 1) 0) ∧
    bump_version v "bugfix" = .ok (mkVersionString M N (P + 1)) ∧
    ∀ bt, bt ≠ "major" → bt ≠ "minor" → bt ≠ "bugfix" →
      bump_version v bt = .error .unknownBumpType := by
  refine ⟨?_, ?_, ?_, ?_⟩
  · simp [bump_version, hv]
  · simp [bump_version, hv]
  · simp [bump_version, hv]
  · intro bt h1 h2 h3
    simp only [bump_version, hv]
    rw [if_neg h1, if_neg h2, if_neg h3]

/-! Claim theorems. -/

/-- Claim C1, counterexample: the calculator does not accept the bump
type `"patch"`; `bump_version("0.0.0", "patch")` raises the unknown
bump type error instead of returning `"0.0.1"`. -/
theorem bump_version_patch_counterexample :
    bump_version "0.0.0" "patch" = .error .unknownBumpType ∧
      bump_version "0.0.0" "patch" ≠ .ok "0.0.1" := by decide

/-- Claim C1 (amended): the version calculator is a pure total function
on (Version, BumpType) whose accepted bump types are `"major"`,
`"minor"` and `"bugfix"`: bumping `(M, N, P)` with major gives
`(M+1, 0, 0)`, with minor gives `(M, N+1, 0)`, with bugfix gives
`(M, N, P+1)`; `bump("1.2.3", "minor") = "1.3.0"`,
`bump("0.0.0", "bugfix") = "0.0.1"`, `bump("9.9.9", "major") = "10.0.0"`,
and any other bump type string, including `"patch"`, fails with the
unknown bump type error. -/
theorem bump_version_amended (v : String) (M N P : Nat)
    (hv : parseVersionTriple v = some (M, N, P)) :
    bump_version v "major" = .ok (mkVersionString (M + 1) 0 0) ∧
    bump_version v "minor" = .ok (mkVersionString M (N + 1) 0) ∧
    bump_version v "bugfix" = .ok (mkVersionString M N (P + 1)) ∧
    (∀ bt, bt ≠ "major" → bt ≠ "minor" → bt ≠ "bugfix" →
      bump_version v bt = .error .unknownBumpType) ∧
    bump_version "1.2.3" "minor" = .ok "1.3.0" ∧
    bump_version "0.0.0" "bugfix" = .ok "0.0.1" ∧
    bump_version "9.9.9" "major" = .ok "10.0.0" := by
  obtain ⟨h1, h2, h3, h4⟩ := bump_version_eval v M N P hv
  exact ⟨h1, h2, h3, h4, by decide, by decide, by decide⟩

/-- Witness for claim C1 at the concrete version `"1.2.3"`. -/
theorem bump_version_amended_witness :
    bump_version "1.2.3" "major" = .ok (mkVersionString 2 0 0) :=
  (bump_version_amended "1.2.3" 1 2 3 (by decide)).1

/-- Claim C2, counterexample: a window whose first line is
`Minor`-tagged and whose second line is `Bugfix`-tagged classifies as
bugfix, not minor — the later patch-level signal does downgrade the
result. -/
theorem analyze_minor_then_bugfix_counterexample :
    analyze_last_commit "Minor: add feature\nBugfix: fix bug" = .ok "bugfix" ∧
      analyze_last_commit "Minor: add feature\nBugfix: fix bug" ≠ .ok "minor" := by decide

/-- Claim C2 (amended): in a window of Minor/Bugfix-tagged lines the
last tag wins, so a Bugfix line after a Minor line downgrades the
result to bugfix; a Major-tagged line still short-circuits to major
provided every earlier line carries a Minor or Bugfix tag; the window
`Minor ... / Bugfix ...` classifies as bugfix. -/
theorem analyze_precedence_amended :
    (∀ lines bt0, (∀ x ∈ lines,
        pyStartsWith "Minor" x = true ∨ pyStartsWith "Bugfix" x = true) →
      analyzeLines lines bt0 = .ok ((lines.map tagOf).getLastD bt0)) ∧
    (∀ sl maj post bt0, (∀ x ∈ sl,
        pyStartsWith "Minor" x = true ∨ pyStartsWith "Bugfix" x = true) →
      pyStartsWith "Major" maj = true →
      analyzeLines (sl ++ maj :: post) bt0 = .ok "major") ∧
    analyze_last_commit "Minor: add feature\nBugfix: fix bug" = .ok "bugfix" :=
  ⟨analyzeLines_lastTag, analyzeLines_major, by decide⟩

/-- Witness for claim C2 on concrete windows. -/
theorem analyze_precedence_amended_witness :
    analyzeLines ["Minor: a", "Bugfix: b"] "bugfix" = .ok "bugfix" ∧
    analyzeLines (["Minor: a"] ++ "Major: c" :: []) "start" = .ok "major" := by
  constructor
  · have h := analyze_precedence_amended.1 ["Minor: a", "Bugfix: b"] "bugfix" (by decide)
    rw [show ((["Minor: a", "Bugfix: b"].map tagOf).getLastD "bugfix") = "bugfix"
      from by decide] at h
    exact h
  · exact analyze_precedence_amended.2.1 ["Minor: a"] "Major: c" [] "start"
      (by decide) (by decide)

/-- Claim C3: the version reader scans the changelog lines in order for
headings matching the version regex and returns the capture of the
last matching heading; a missing changelog, an empty one, or one with
no matching heading yields `"0.0.0"`; a two-heading fixture yields the
later heading. -/
theorem read_latest_version_spec :
    (∀ lines, readVersionLines lines
        = (lines.filterMap matchVersionHeading).getLastD "0.0.0") ∧
    read_latest_version none = "0.0.0" ∧
    read_latest_version (some []) = "0.0.0" ∧
    (∀ lines, (∀ l ∈ lines, matchVersionHeading l = none) →
      read_latest_version (some lines) = "0.0.0") ∧
    read_latest_version (some ["# Changelog\n", "## v1.0.0 - May 01, 2024\n",
      "first entry\n", "## v1.1.0 - May 02, 2024\n", "second entry\n"]) = "1.1.0" := by
  refine ⟨fun lines => foldl_versionScan lines "0.0.0", by decide, by decide, ?_, by decide⟩
  intro lines hl
  show readVersionLines lines = "0.0.0"
  unfold readVersionLines
  rw [foldl_versionScan]
  have hnil : lines.filterMap matchVersionHeading = [] := by
    rw [List.filterMap_eq_nil_iff]
    exact hl
  rw [hnil]
  rfl

/-- Witness for claim C3 on a changelog with no matching heading. -/
theorem read_latest_version_spec_witness :
    read_latest_version (some ["no headings here"]) = "0.0.0" :=
  read_latest_version_spec.2.2.2.1 ["no headings here"] (by decide)

/-- Claim C4: every commit-message line must begin with `Major`,
`Minor` or `Bugfix`; a line starting with none of these tags, with no
prior `Major` line to short-circuit past it, makes the classifier
raise the invalid commit format error rather than default to a patch
bump. -/
theorem analyze_untagged_line_fatal (s : String) (sl : List String) (bad : String)
    (rest : List String) (hsplit : pySplit '\n' s = sl ++ bad :: rest)
    (hpre : ∀ x ∈ sl, pyStartsWith "Major" x = false)
    (hbad : isTagged bad = false) :
    analyze_last_commit s = .error .invalidCommitFormat := by
  unfold analyze_last_commit
  rw [hsplit]
  exact analyzeLines_error sl bad rest "bugfix" hpre hbad

/-- Witness for claim C4 on a conventional untagged commit subject. -/
theorem analyze_untagged_line_fatal_witness :
    analyze_last_commit "update readme" = .error .invalidCommitFormat :=
  analyze_untagged_line_fatal "update readme" [] "update readme" []
    (by decide) (by decide) (by decide)

/-- Claim C5: the metadata resolver maps the branch name
`"acme/widgets/release"` to `("acme", "widgets")`, and on any branch
name that does not contain the pattern it raises the metadata not
found error — every run either raises that error or returns the two
word groups of an occurrence of `<word>/<word>/release` inside the
branch name, never a default. -/
theorem parse_project_metadata_spec :
    parse_project_metadata "acme/widgets/release" = .ok ("acme", "widgets") ∧
    (∀ branch : String,
      parse_project_metadata branch = .error .metadataNotFound ∨
      ∃ c p pre post,
        branch.data = pre ++ (c ++ '/' :: (p ++ '/' :: ("release".data ++ post))) ∧
        c ≠ [] ∧ p ≠ [] ∧ (∀ ch ∈ c, isWordChar ch = true) ∧
        (∀ ch ∈ p, isWordChar ch = true) ∧
        parse_project_metadata branch = .ok (String.mk c, String.mk p)) := by
  refine ⟨by decide, ?_⟩
  intro branch
  cases hS : searchFrom branch.data with
  | none =>
    left
    unfold parse_project_metadata
    rw [hS]
  | some r =>
    right
    obtain ⟨r1, r2⟩ := r
    obtain ⟨n, hn, _⟩ := searchFrom_eq_some branch.data (r1, r2) hS
    obtain ⟨c, p, post, hdec, hc, hp, hwc, hwp, hcs, hps⟩ := tryMatchAt_eq_some hn
    refine ⟨c, p, branch.data.take n, post, ?_, hc, hp, hwc, hwp, ?_⟩
    · conv_lhs => rw [← List.take_append_drop n branch.data]
      rw [hdec]
    · unfold parse_project_metadata
      rw [hS, hcs, hps]

/-- Claim C6, counterexample: composing a major bump with a `"patch"`
bump raises the unknown bump type error — `"patch"` is not an accepted
bump type — instead of producing `"2.0.1"` from `"1.2.3"`. -/
theorem bump_compose_patch_counterexample :
    (bump_version "1.2.3" "major").bind (fun w => bump_version w "patch")
        = .error .unknownBumpType ∧
      (bump_version "1.2.3" "major").bind (fun w => bump_version w "patch")
        ≠ .ok "2.0.1" := by decide

/-- Claim C6 (amended): for every version parsing as `(M, N, P)`,
composing a major bump with a bugfix bump — the bump type the code
spells `"bugfix"` where the claim wrote patch — yields `(M+1, 0, 1)`;
and a single accepted bump never decreases a higher-order component
than the one it increments: major never decreases under any bump, and
minor never decreases under a minor or bugfix bump. -/
theorem bump_compose_amended (v : String) (M N P : Nat)
    (hv : parseVersionTriple v = some (M, N, P)) :
    (bump_version v "major").bind (fun w => bump_version w "bugfix")
        = .ok (mkVersionString (M + 1) 0 1) ∧
    (∀ bt w M2 N2 P2, bump_version v bt = .ok w →
      parseVersionTriple w = some (M2, N2, P2) →
      M ≤ M2 ∧ ((bt = "minor" ∨ bt = "bugfix") → N ≤ N2)) := by
  obtain ⟨hmaj, hmin, hbug, hother⟩ := bump_version_eval v M N P hv
  constructor
  · rw [hmaj]
    show bump_version (mkVersionString (M + 1) 0 0) "bugfix" = _
    obtain ⟨_, _, hbug2, _⟩ :=
      bump_version_eval (mkVersionString (M + 1) 0 0) (M + 1) 0 0
        (parseVersionTriple_mk (M + 1) 0 0)
    rw [hbug2]
  · intro bt w M2 N2 P2 hok hparse
    by_cases h1 : bt = "major"
    · subst h1
      rw [hmaj] at hok
      injection hok with hw
      rw [← hw, parseVersionTriple_mk] at hparse
      simp only [Option.some.injEq, Prod.mk.injEq] at hparse
      constructor
      · omega
      · rintro (he | he) <;> exact absurd he (by decide)
    · by_cases h2 : bt = "minor"
      · subst h2
        rw [hmin] at hok
        injection hok with hw
        rw [← hw, parseVersionTriple_mk] at hparse
        simp only [Option.some.injEq, Prod.mk.injEq] at hparse
        exact ⟨by omega, fun _ => by omega⟩
      · by_cases h3 : bt = "bugfix"
        · subst h3
          rw [hbug] at hok
          injection hok with hw
          rw [← hw, parseVersionTriple_mk] at hparse
          simp only [Option.some.injEq, Prod.mk.injEq] at hparse
          exact ⟨by omega, fun _ => by omega⟩
        · rw [hother bt h1 h2 h3] at hok
          exact absurd hok (by simp)

/-- Witness for claim C6 at the concrete version `"1.2.3"`. -/
theorem bump_compose_amended_witness :
    (bump_version "1.2.3" "major").bind (fun w => bump_version w "bugfix")
      = .ok (mkVersionString 2 0 1) :=
  (bump_compose_amended "1.2.3" 1 2 3 (by decide)).1

/-- Claim C7: the changelog writer only appends — the new content is
exactly the prior content followed by the heading line
`## v<version> - <timestamp> (UTC)`, the change description and a
blank-line separator, so every prior section is untouched. -/
theorem generate_changelog_append_only (existing v ts d : String) :
    generate_changelog existing v ts d
        = existing ++ (changelogHeading v ts ++ (d ++ "\n\n")) ∧
    (generate_changelog existing v ts d).data
        = existing.data ++ (changelogHeading v ts).data ++ d.data ++ "\n\n".data ∧
    changelogHeading v ts = "## v" ++ v ++ " - " ++ ts ++ " (UTC)\n" := by
  refine ⟨?_, ?_, rfl⟩
  · apply String.ext
    show ((((existing ++ changelogHeading v ts) ++ d) ++ "\n\n")).data = _
    simp [String.data_append, List.append_assoc]
  · show ((((existing ++ changelogHeading v ts) ++ d) ++ "\n\n")).data = _
    simp [String.data_append, List.append_assoc]

/-- Claim C8: whatever line list the version reader is given, its
output parses as exactly three dot-separated numeric components, so
the version calculator integer parse never fails on the reader
output. -/
theorem read_latest_version_always_parses :
    ∀ content, ∃ M N P, parseVersionTriple (read_latest_version content)
      = some (M, N, P) := by
  intro content
  cases content with
  | none =>
    obtain ⟨⟨M, N, P⟩, ht⟩ := readVersionLines_parses initChangelogLines
    exact ⟨M, N, P, ht⟩
  | some lines =>
    obtain ⟨⟨M, N, P⟩, ht⟩ := readVersionLines_parses lines
    exact ⟨M, N, P, ht⟩

/-- Claim C9: the classifier splits the raw message on newline
characters keeping empty lines; an empty line carries no tag, so a
message whose first line is Minor- or Bugfix-tagged but which contains
an empty line afterwards — such as the trailing empty line of a
message ending in a newline — is rejected with the invalid commit
format error, provided no Major line precedes the first untagged
line. -/
theorem analyze_empty_line_rejected (s first : String) (rest : List String)
    (hsplit : pySplit '\n' s = first :: rest)
    (hfirst : pyStartsWith "Minor" first = true ∨ pyStartsWith "Bugfix" first = true)
    (hempty : "" ∈ rest)
    (hnomajor : ∀ x ∈ (first :: rest).takeWhile isTagged,
      pyStartsWith "Major" x = false) :
    analyze_last_commit s = .error .invalidCommitFormat := by
  have hunt : "" ∈ first :: rest := List.mem_cons_of_mem first hempty
  have hex : ∃ x ∈ first :: rest, isTagged x = false := ⟨"", hunt, by decide⟩
  obtain ⟨bad, brest, hdrop, hbad⟩ := dropWhile_head_false isTagged (first :: rest) hex
  have hsplit2 : first :: rest = (first :: rest).takeWhile isTagged ++ bad :: brest := by
    rw [← hdrop]
    exact (List.takeWhile_append_dropWhile isTagged (first :: rest)).symm
  unfold analyze_last_commit
  rw [hsplit, hsplit2]
  exact analyzeLines_error _ bad brest "bugfix" hnomajor hbad

/-- Witness for claim C9: a Minor-tagged message ending in a newline is
rejected because of the trailing empty line. -/
theorem analyze_empty_line_rejected_witness :
    analyze_last_commit "Minor: tweak\n" = .error .invalidCommitFormat :=
  analyze_empty_line_rejected "Minor: tweak\n" "Minor: tweak" [""] (by decide)
    (Or.inl (by decide)) (by decide) (by decide)

/-- Claim C10: the resolver matches by substring search, not
whole-string match — any branch name containing
`<word>/<word>/release` anywhere succeeds, the returned pair is the
match at the leftmost position where the pattern matches, and the
branch names `"team/acme/widgets/release"` and
`"acme/widgets/release-v2"` both resolve to `("acme", "widgets")`. -/
theorem parse_project_metadata_substring (branch : String) :
    (∀ pre c p post,
      branch.data = pre ++ (c ++ '/' :: (p ++ '/' :: ("release".data ++ post))) →
      c ≠ [] → p ≠ [] → (∀ ch ∈ c, isWordChar ch = true) →
      (∀ ch ∈ p, isWordChar ch = true) →
      ∃ r, parse_project_metadata branch = .ok r) ∧
    (∀ r, parse_project_metadata branch = .ok r →
      ∃ n, tryMatchAt (branch.data.drop n) = some r ∧
        ∀ m, m < n → tryMatchAt (branch.data.drop m) = none) ∧
    parse_project_metadata "team/acme/widgets/release" = .ok ("acme", "widgets") ∧
    parse_project_metadata "acme/widgets/release-v2" = .ok ("acme", "widgets") := by
  refine ⟨?_, ?_, by decide, by decide⟩
  · intro pre c p post hdec hc hp hwc hwp
    have hmatch : tryMatchAt (branch.data.drop pre.length)
        = some (String.mk c, String.mk p) := by
      rw [hdec, List.drop_left]
      exact tryMatchAt_of_shape c p post hc hp hwc hwp
    obtain ⟨r2, hr2⟩ := searchFrom_of_tryMatch branch.data pre.length _ hmatch
    refine ⟨r2, ?_⟩
    unfold parse_project_metadata
    rw [hr2]
  · intro r hok
    have hS : searchFrom branch.data = some r := by
      cases hS2 : searchFrom branch.data with
      | none =>
        simp only [parse_project_metadata, hS2] at hok
        exact absurd hok (by simp)
      | some r2 =>
        simp only [parse_project_metadata, hS2] at hok
        injection hok with h2
        rw [h2]
    exact searchFrom_eq_some branch.data r hS

/-- Witness for claim C10 on the branch `"a/b/release"`. -/
theorem parse_project_metadata_substring_witness :
    (∃ r, parse_project_metadata "a/b/release" = .ok r) ∧
    (∃ n, tryMatchAt (("a/b/release" : String).data.drop n) = some ("a", "b") ∧
      ∀ m, m < n → tryMatchAt (("a/b/release" : String).data.drop m) = none) := by
  constructor
  · exact (parse_project_metadata_substring "a/b/release").1 [] ['a'] ['b'] []
      (by decide) (by decide) (by decide) (by decide) (by decide)
  · exact (parse_project_metadata_substring "a/b/release").2.1 ("a", "b") (by decide)

end ConfigRelease
